import Mathlib

/-!
# Gaussian-process regression notebook: verified embedding

This file embeds, over exact real arithmetic, the reusable core of the
Gaussian-process notebook: the squared-exponential kernels (`sq_exp` for the
one-dimensional pairwise-difference path, `sq_exp2d` for the general
Euclidean-distance path), prior sampling by Cholesky factorisation with
diagonal jitter, and the closed-form posterior mean and covariance
(`mu_cond`, `sig_cond`).  Floating-point rounding is not modelled: machine
reals become `ℝ`.  Library routines (`cupy.linalg.inv`,
`cupy.linalg.cholesky`, matrix multiplication with runtime shape checks) are
modelled by their documented contracts.
-/

namespace GPNotebook

open Matrix Finset

noncomputable section

/-- Squared Euclidean distance between two `d`-dimensional points. -/
def sqdist {d : ℕ} (x y : Fin d → ℝ) : ℝ := ∑ k, (x k - y k) ^ 2

/-- The notebook's one-dimensional squared-exponential kernel `sq_exp`:
`diff = x1 - x2.T; sqdiff = cp.power(diff, 2); cp.exp(-0.5 * sqdiff)`.
Inputs are the column vectors `x1` (m×1) and `x2` (n×1); broadcasting of
`x1 - x2.T` yields the m×n matrix of pairwise differences. -/
def sq_exp {m n : ℕ} (x1 : Fin m → ℝ) (x2 : Fin n → ℝ) : Matrix (Fin m) (Fin n) ℝ :=
  Matrix.of fun i j => Real.exp (-0.5 * (x1 i - x2 j) ^ 2)

/-- `scipy.spatial.distance.cdist` with the default Euclidean metric. -/
def cdist {d m n : ℕ} (x1 : Fin m → Fin d → ℝ) (x2 : Fin n → Fin d → ℝ) :
    Matrix (Fin m) (Fin n) ℝ :=
  Matrix.of fun i j => Real.sqrt (sqdist (x1 i) (x2 j))

/-- The notebook's general kernel `sq_exp2d`:
`d = scipy.spatial.distance.cdist(x1, x2); cp.exp(-0.5 * cp.power(d, 2))`. -/
def sq_exp2d {d m n : ℕ} (x1 : Fin m → Fin d → ℝ) (x2 : Fin n → Fin d → ℝ) :
    Matrix (Fin m) (Fin n) ℝ :=
  Matrix.of fun i j => Real.exp (-0.5 * cdist x1 x2 i j ^ 2)

/-- Posterior mean cell: `mu_cond = K_s.T @ cp.linalg.inv(K_samp) @ f_samp`
(`@` associates to the left). -/
def mu_cond {d m n : ℕ} (Xt : Fin m → Fin d → ℝ) (y : Fin m → ℝ)
    (Xq : Fin n → Fin d → ℝ) : Fin n → ℝ :=
  ((sq_exp2d Xt Xq)ᵀ * (sq_exp2d Xt Xt)⁻¹) *ᵥ y

/-- Posterior covariance cell:
`sig_cond = K_ss - K_s.T @ cp.linalg.inv(K_samp) @ K_s`. -/
def sig_cond {d m n : ℕ} (Xt : Fin m → Fin d → ℝ) (Xq : Fin n → Fin d → ℝ) :
    Matrix (Fin n) (Fin n) ℝ :=
  sq_exp2d Xq Xq - (sq_exp2d Xt Xq)ᵀ * (sq_exp2d Xt Xt)⁻¹ * sq_exp2d Xt Xq

/-- Spec-side posterior mean, following the spec's words
"mean = K_sᵗ · K⁻¹ · y_train": the transposed cross-kernel applied to the
inverse kernel matrix applied to the training values. -/
def specMean {d m n : ℕ} (Xt : Fin m → Fin d → ℝ) (y : Fin m → ℝ)
    (Xq : Fin n → Fin d → ℝ) : Fin n → ℝ :=
  (sq_exp2d Xt Xq)ᵀ *ᵥ ((sq_exp2d Xt Xt)⁻¹ *ᵥ y)

/-- Spec-side posterior covariance, following the spec's words
"covariance = K_ss − K_sᵗ · K⁻¹ · K_s". -/
def specCov {d m n : ℕ} (Xt : Fin m → Fin d → ℝ) (Xq : Fin n → Fin d → ℝ) :
    Matrix (Fin n) (Fin n) ℝ :=
  sq_exp2d Xq Xq - (sq_exp2d Xt Xq)ᵀ * ((sq_exp2d Xt Xt)⁻¹ * sq_exp2d Xt Xq)

/-- Concrete one-point training set used to instantiate theorems: the single
1-dimensional point 0. -/
def X0 : Fin 1 → Fin 1 → ℝ := fun _ _ => 0

/-- Concrete training value at `X0`. -/
def y0 : Fin 1 → ℝ := fun _ => 2

/-- Concrete scenario: training inputs [[-1.0], [1.0]]. -/
def Xtrain9 : Fin 2 → Fin 1 → ℝ := ![![-1], ![1]]

/-- Concrete scenario: training values [-0.8415, 0.8415]. -/
def ytrain9 : Fin 2 → ℝ := ![-0.8415, 0.8415]

/-- Concrete scenario: query input [[0.0]]. -/
def Xquery9 : Fin 1 → Fin 1 → ℝ := ![![0]]

/-- The squared-exponential kernel matrix over an arbitrary finite index of
points; `sq_exp2d` is the special case of `Fin`-indexed point families.
Used to analyse the joint kernel matrix of training and query points. -/
def kmat {d : ℕ} {ι κ : Type*} (v : ι → Fin d → ℝ) (w : κ → Fin d → ℝ) :
    Matrix ι κ ℝ :=
  Matrix.of fun i j => Real.exp (-0.5 * sqdist (v i) (w j))

/-- Explicit inverse of the concrete scenario's 2×2 kernel matrix. -/
def Kinv9 : Matrix (Fin 2) (Fin 2) ℝ :=
  (1 - Real.exp (-2) ^ 2)⁻¹ • !![1, -Real.exp (-2); -Real.exp (-2), 1]

/-- The spec's two error kinds (§7): ShapeMismatch for inconsistent array
dimensions, NumericalInstability for a failed factorization.  These model the
numpy/cupy exceptions (`ValueError`, `LinAlgError`) surfaced by the notebook
cells. -/
inductive GPError : Type
  | shapeMismatch : GPError
  | numericalInstability : GPError

/-- The well-founded-order instance on `Fin k`, fixed once so that all
references to the LDL decomposition use the same instance term. -/
def finWF (k : ℕ) : WellFoundedLT (Fin k) := (Fin.Lt.isWellOrder k).toIsWellFounded

/-- The inverse-of-`L` matrix of the LDL decomposition (Gram-Schmidt of the
standard basis), with the order instance fixed. -/
def ldlLowerInv {k : ℕ} {A : Matrix (Fin k) (Fin k) ℝ} (hA : A.PosDef) :
    Matrix (Fin k) (Fin k) ℝ :=
  @LDL.lowerInv ℝ _ (Fin k) _ (finWF k) _ A _ hA

/-- The `L` matrix of the LDL decomposition. -/
def ldlLower {k : ℕ} {A : Matrix (Fin k) (Fin k) ℝ} (hA : A.PosDef) :
    Matrix (Fin k) (Fin k) ℝ :=
  (ldlLowerInv hA)⁻¹

/-- The diagonal entries of the LDL decomposition, with the order instance
fixed. -/
def ldlDiagEntries {k : ℕ} {A : Matrix (Fin k) (Fin k) ℝ} (hA : A.PosDef) :
    Fin k → ℝ :=
  @LDL.diagEntries ℝ _ (Fin k) _ (finWF k) _ A _ hA

/-- Invertibility of the LDL `L⁻¹` matrix, transported to the canonical
matrix-algebra instances. -/
def lowerInv_invertible {k : ℕ} {A : Matrix (Fin k) (Fin k) ℝ}
    (hA : A.PosDef) : Invertible (ldlLowerInv hA) := by
  have h := @LDL.invertibleLowerInv ℝ _ (Fin k) _ (finWF k) _ A _ hA
  refine ⟨h.invOf, ?_, ?_⟩
  · unfold ldlLowerInv
    rw [h.invOf_mul_self]
    ext i j
    by_cases hij : i = j <;> simp [Matrix.one_apply, hij]
  · unfold ldlLowerInv
    rw [h.mul_invOf_self]
    ext i j
    by_cases hij : i = j <;> simp [Matrix.one_apply, hij]

/-- The factor returned by `cp.linalg.cholesky` on a positive-definite input,
modelled from the library contract (lower-triangular `L` with `L·Lᵀ = A`):
built here from Mathlib's LDL decomposition as `L_LDL · diag(√dᵢ)`. -/
def cholFactor {k : ℕ} {A : Matrix (Fin k) (Fin k) ℝ} (hA : A.PosDef) :
    Matrix (Fin k) (Fin k) ℝ :=
  ldlLower hA * Matrix.diagonal fun i => Real.sqrt (ldlDiagEntries hA i)

/-- `cp.linalg.cholesky` with its failure mode: the factorization fails
(LinAlgError, modelled as NumericalInstability) unless the input is positive
definite. -/
def choleskyE {k : ℕ} (A : Matrix (Fin k) (Fin k) ℝ) :
    Except GPError (Matrix (Fin k) (Fin k) ℝ) :=
  letI := Classical.propDecidable A.PosDef
  if h : A.PosDef then .ok (cholFactor h) else .error .numericalInstability

/-- Prior-sampling cell: `K = sq_exp(x, x); eps = 1E-6 * cp.eye(n);
L = cp.linalg.cholesky(K + eps); f_prior = cp.dot(L, cp.random.normal(...))`.
The standard-normal draws are passed in as the matrix `Z`. -/
def samplePriorE {k s : ℕ} (x : Fin k → ℝ) (Z : Matrix (Fin k) (Fin s) ℝ) :
    Except GPError (Matrix (Fin k) (Fin s) ℝ) :=
  (choleskyE (sq_exp x x + (1e-6 : ℝ) • 1)).map fun L => L * Z

/-- Concrete 1-point input for the sampling witnesses. -/
def x0v : Fin 1 → ℝ := fun _ => 0

/-- Concrete standard-normal draw matrix for the sampling witnesses. -/
def Z0 : Matrix (Fin 1) (Fin 1) ℝ := fun _ _ => 1

/-- Concrete input with an exactly duplicated point. -/
def xdup : Fin 2 → ℝ := fun _ => 0

/-- Concrete draw matrix for the duplicated-point witness. -/
def Zdup : Matrix (Fin 2) (Fin 1) ℝ := fun _ _ => 1

/-! Dynamically-shaped matrices as lists of rows, for modelling numpy's
runtime shape checking (a mismatch raises ValueError, the spec's
ShapeMismatch). -/

/-- Number of rows of a dynamically-shaped matrix. -/
def rowsL (A : List (List ℝ)) : ℕ := A.length

/-- Number of columns of a dynamically-shaped matrix (0 when empty). -/
def colsL (A : List (List ℝ)) : ℕ := (A.head?.map List.length).getD 0

/-- The 1-D kernel on dynamically-shaped column vectors: entry (i,j) is
`exp(-0.5 * (xs i - ys j)^2)`. -/
def kernel1L (xs ys : List ℝ) : List (List ℝ) :=
  xs.map fun a => ys.map fun b => Real.exp (-0.5 * (a - b) ^ 2)

/-- Transpose of a dynamically-shaped matrix. -/
def transposeL (A : List (List ℝ)) : List (List ℝ) :=
  (List.range (colsL A)).map fun j => A.map fun r => r.getD j 0

/-- Dot product of two rows. -/
def dotL (r c : List ℝ) : ℝ := (List.zipWith (fun u v => u * v) r c).sum

/-- numpy's `@` with its runtime shape check: raises ValueError
(ShapeMismatch) when the inner dimensions disagree. -/
def matmulE (A B : List (List ℝ)) : Except GPError (List (List ℝ)) :=
  if colsL A = rowsL B then
    .ok (A.map fun r => (transposeL B).map fun c => dotL r c)
  else .error .shapeMismatch

/-- numpy's matrix-vector product with its runtime shape check. -/
def matvecE (A : List (List ℝ)) (v : List ℝ) : Except GPError (List ℝ) :=
  if colsL A = v.length then .ok (A.map fun r => dotL r v)
  else .error .shapeMismatch

/-- A dynamically-shaped matrix reinterpreted as a square `Matrix`. -/
def squareOf (A : List (List ℝ)) : Matrix (Fin (rowsL A)) (Fin (rowsL A)) ℝ :=
  Matrix.of fun i j => (A.getD i.val []).getD j.val 0

/-- A `Matrix` written back as a list of rows. -/
def matToList {m n : ℕ} (M : Matrix (Fin m) (Fin n) ℝ) : List (List ℝ) :=
  List.ofFn fun i => List.ofFn fun j => M i j

/-- `cp.linalg.inv`, modelled by its contract: it requires a square input
(else a dimension error, the spec's ShapeMismatch), and on an exactly
singular matrix it raises LinAlgError (the spec's NumericalInstability)
instead of returning a value; otherwise it returns the inverse. -/
def invE (A : List (List ℝ)) : Except GPError (List (List ℝ)) :=
  if rowsL A = colsL A then
    letI := Classical.propDecidable (IsUnit (squareOf A).det)
    if IsUnit (squareOf A).det then .ok (matToList (squareOf A)⁻¹)
    else .error .numericalInstability
  else .error .shapeMismatch

/-- The 1-D posterior-mean cell over dynamic shapes:
`mu_cond = K_s.T @ cp.linalg.inv(K_samp) @ f_samp`. -/
def posteriorMuE (xs ys xq : List ℝ) : Except GPError (List ℝ) := do
  let Kinv ← invE (kernel1L xs xs)
  let M ← matmulE (transposeL (kernel1L xs xq)) Kinv
  matvecE M ys

/-- `scipy.spatial.distance.cdist` over dynamic shapes, with its
dimensionality check: all points of both inputs must share the
dimensionality of the first input. -/
def cdistE (X1 X2 : List (List ℝ)) : Except GPError (List (List ℝ)) :=
  if (∀ p ∈ X1, p.length = colsL X1) ∧ (∀ p ∈ X2, p.length = colsL X1) then
    .ok (X1.map fun a => X2.map fun b =>
      Real.sqrt ((List.zipWith (fun u v => (u - v) ^ 2) a b).sum))
  else .error .shapeMismatch

/-- The multi-dimensional kernel `sq_exp2d` over dynamic shapes. -/
def sq_exp2dE (X1 X2 : List (List ℝ)) : Except GPError (List (List ℝ)) :=
  (cdistE X1 X2).map fun D => D.map (List.map fun t => Real.exp (-0.5 * t ^ 2))

/-- The multi-dimensional posterior-mean cell over dynamic shapes:
`mu_cond = K_s.T @ cp.linalg.inv(K_samp) @ f_samp` with `sq_exp2d`. -/
def posterior2MuE (Xt : List (List ℝ)) (ys : List ℝ) (Xq : List (List ℝ)) :
    Except GPError (List ℝ) := do
  let K ← sq_exp2dE Xt Xt
  let Ks ← sq_exp2dE Xt Xq
  let Kinv ← invE K
  let M ← matmulE (transposeL Ks) Kinv
  matvecE M ys

end

/-! ## Basic kernel lemmas -/

lemma sqdist_nonneg {d : ℕ} (x y : Fin d → ℝ) : 0 ≤ sqdist x y :=
  Finset.sum_nonneg fun _ _ => sq_nonneg _

lemma sqdist_comm {d : ℕ} (x y : Fin d → ℝ) : sqdist x y = sqdist y x := by
  unfold sqdist
  refine Finset.sum_congr rfl fun k _ => ?_
  ring

lemma sqdist_self {d : ℕ} (x : Fin d → ℝ) : sqdist x x = 0 := by
  unfold sqdist
  simp

lemma sqdist_eq_zero_iff {d : ℕ} (x y : Fin d → ℝ) : sqdist x y = 0 ↔ x = y := by
  unfold sqdist
  rw [Finset.sum_eq_zero_iff_of_nonneg fun k _ => sq_nonneg _]
  constructor
  · intro h
    funext k
    have hk := h k (Finset.mem_univ k)
    have : x k - y k = 0 := by
      have := sq_eq_zero_iff.mp hk
      exact this
    linarith
  · intro h
    subst h
    simp

/-- The general kernel, rewritten without the intermediate square root. -/
lemma sq_exp2d_apply {d m n : ℕ} (x1 : Fin m → Fin d → ℝ) (x2 : Fin n → Fin d → ℝ)
    (i : Fin m) (j : Fin n) :
    sq_exp2d x1 x2 i j = Real.exp (-0.5 * sqdist (x1 i) (x2 j)) := by
  unfold sq_exp2d cdist
  simp only [Matrix.of_apply]
  rw [Real.sq_sqrt (sqdist_nonneg _ _)]

lemma sq_exp_apply {m n : ℕ} (x1 : Fin m → ℝ) (x2 : Fin n → ℝ) (i : Fin m) (j : Fin n) :
    sq_exp x1 x2 i j = Real.exp (-0.5 * (x1 i - x2 j) ^ 2) := rfl

/-- One-dimensional squared distance is the squared difference. -/
lemma sqdist_one_dim (a b : ℝ) :
    sqdist (fun _ : Fin 1 => a) (fun _ : Fin 1 => b) = (a - b) ^ 2 := by
  unfold sqdist
  simp

/-- C2. For every pair of point sets `X1` (m points) and `X2` (n points) of
common dimension `d`, the general kernel `sq_exp2d` returns the m×n matrix
whose (i,j) entry is `exp(-0.5 * squared Euclidean distance (X1 i) (X2 j))`,
uniformly in the dimension `d` (covering `d = 1` and `d ≥ 2`); and on
one-dimensional inputs the notebook's `sq_exp` path computes the same
formula, with the squared difference being the 1-D squared distance. -/
theorem kernel_matches_contract {d m n : ℕ} (x1 : Fin m → Fin d → ℝ)
    (x2 : Fin n → Fin d → ℝ) (y1 : Fin m → ℝ) (y2 : Fin n → ℝ) (i : Fin m) (j : Fin n) :
    sq_exp2d x1 x2 i j = Real.exp (-0.5 * sqdist (x1 i) (x2 j)) ∧
    sq_exp y1 y2 i j =
      Real.exp (-0.5 * sqdist (fun _ : Fin 1 => y1 i) (fun _ : Fin 1 => y2 j)) := by
  refine ⟨sq_exp2d_apply x1 x2 i j, ?_⟩
  rw [sq_exp_apply, sqdist_one_dim]

/-- C3. On matching one-dimensional inputs the pairwise-difference kernel
`sq_exp` and the Euclidean-distance kernel `sq_exp2d` agree to within 1e-10
(in exact real arithmetic they agree exactly). -/
theorem sq_exp_agrees_sq_exp2d {m n : ℕ} (x1 : Fin m → ℝ) (x2 : Fin n → ℝ)
    (i : Fin m) (j : Fin n) :
    |sq_exp x1 x2 i j -
        sq_exp2d (fun i (_ : Fin 1) => x1 i) (fun j (_ : Fin 1) => x2 j) i j| ≤ 1e-10 := by
  have h : sq_exp x1 x2 i j =
      sq_exp2d (fun i (_ : Fin 1) => x1 i) (fun j (_ : Fin 1) => x2 j) i j := by
    rw [sq_exp_apply, sq_exp2d_apply, sqdist_one_dim]
  rw [h, sub_self, abs_zero]
  norm_num

/-- C10. Every kernel entry lies in the half-open interval (0, 1]: it is
strictly positive, at most 1, and equals 1 exactly when the two points
coincide.  This holds for the general kernel `sq_exp2d` and for the
one-dimensional kernel `sq_exp`. -/
theorem kernel_entries_mem_unit_interval {d m n : ℕ} (x1 : Fin m → Fin d → ℝ)
    (x2 : Fin n → Fin d → ℝ) (y1 : Fin m → ℝ) (y2 : Fin n → ℝ) (i : Fin m) (j : Fin n) :
    (0 < sq_exp2d x1 x2 i j ∧ sq_exp2d x1 x2 i j ≤ 1 ∧
      (sq_exp2d x1 x2 i j = 1 ↔ x1 i = x2 j)) ∧
    (0 < sq_exp y1 y2 i j ∧ sq_exp y1 y2 i j ≤ 1 ∧
      (sq_exp y1 y2 i j = 1 ↔ y1 i = y2 j)) := by
  constructor
  · rw [sq_exp2d_apply]
    refine ⟨Real.exp_pos _, ?_, ?_⟩
    · rw [Real.exp_le_one_iff]
      have := sqdist_nonneg (x1 i) (x2 j)
      nlinarith
    · rw [Real.exp_eq_one_iff]
      constructor
      · intro h
        have hz : sqdist (x1 i) (x2 j) = 0 := by nlinarith
        exact (sqdist_eq_zero_iff _ _).mp hz
      · intro h
        rw [h, sqdist_self]
        ring
  · rw [sq_exp_apply]
    refine ⟨Real.exp_pos _, ?_, ?_⟩
    · rw [Real.exp_le_one_iff]
      nlinarith [sq_nonneg (y1 i - y2 j)]
    · rw [Real.exp_eq_one_iff]
      constructor
      · intro h
        have hz : (y1 i - y2 j) ^ 2 = 0 := by nlinarith
        have := sq_eq_zero_iff.mp hz
        linarith
      · intro h
        rw [h]
        ring

/-! ## Posterior computation -/

/-- The self-kernel matrix is symmetric. -/
lemma sq_exp2d_self_transpose {d m : ℕ} (X : Fin m → Fin d → ℝ) :
    (sq_exp2d X X)ᵀ = sq_exp2d X X := by
  ext i j
  rw [Matrix.transpose_apply, sq_exp2d_apply, sq_exp2d_apply, sqdist_comm]

lemma det_sq_exp2d_X0 : (sq_exp2d X0 X0).det = 1 := by
  rw [Matrix.det_fin_one, sq_exp2d_apply, sqdist_self]
  norm_num

lemma isUnit_det_sq_exp2d_X0 : IsUnit (sq_exp2d X0 X0).det := by
  rw [det_sq_exp2d_X0]
  exact isUnit_one

/-- C1. In the posterior computation, the code's mean
`K_s.T @ inv(K) @ y_train` equals the spec's `K_sᵗ · K⁻¹ · y_train` and the
code's covariance `K_ss - K_s.T @ inv(K) @ K_s` equals the spec's
`K_ss − K_sᵗ · K⁻¹ · K_s`; the mean is indexed by the `n` query points and
the covariance by query × query pairs (the shape contract is enforced by the
types `Fin n → ℝ` and `Matrix (Fin n) (Fin n) ℝ`). -/
theorem posterior_computes_spec_formulas {d m n : ℕ} (Xt : Fin m → Fin d → ℝ)
    (y : Fin m → ℝ) (Xq : Fin n → Fin d → ℝ)
    (hK : IsUnit (sq_exp2d Xt Xt).det) :
    mu_cond Xt y Xq = specMean Xt y Xq ∧ sig_cond Xt Xq = specCov Xt Xq := by
  constructor
  · unfold mu_cond specMean
    rw [Matrix.mulVec_mulVec]
  · unfold sig_cond specCov
    rw [Matrix.mul_assoc]

/-- Witness for C1 at the one-point training set `X0`. -/
theorem posterior_computes_spec_formulas_witness :
    IsUnit (sq_exp2d X0 X0).det ∧
      (mu_cond X0 y0 X0 = specMean X0 y0 X0 ∧ sig_cond X0 X0 = specCov X0 X0) :=
  ⟨isUnit_det_sq_exp2d_X0,
    posterior_computes_spec_formulas X0 y0 X0 isUnit_det_sq_exp2d_X0⟩

/-- When the query point is the `k`-th training point, row `q` of
`K_sᵀ · K⁻¹` is the `k`-th row of the identity matrix. -/
lemma posterior_row_eq_one_row {d m n : ℕ} (Xt : Fin m → Fin d → ℝ)
    (Xq : Fin n → Fin d → ℝ) (hK : IsUnit (sq_exp2d Xt Xt).det)
    (q : Fin n) (k : Fin m) (hq : Xq q = Xt k) (j : Fin m) :
    ((sq_exp2d Xt Xq)ᵀ * (sq_exp2d Xt Xt)⁻¹) q j = (1 : Matrix (Fin m) (Fin m) ℝ) k j := by
  rw [Matrix.mul_apply]
  have e1 : ∀ i, (sq_exp2d Xt Xq)ᵀ q i = sq_exp2d Xt Xt k i := fun i => by
    rw [Matrix.transpose_apply, sq_exp2d_apply, sq_exp2d_apply, hq, sqdist_comm]
  calc
    ∑ i, (sq_exp2d Xt Xq)ᵀ q i * (sq_exp2d Xt Xt)⁻¹ i j
        = ∑ i, sq_exp2d Xt Xt k i * (sq_exp2d Xt Xt)⁻¹ i j :=
      Finset.sum_congr rfl fun i _ => by rw [e1 i]
    _ = (sq_exp2d Xt Xt * (sq_exp2d Xt Xt)⁻¹) k j := (Matrix.mul_apply).symm
    _ = (1 : Matrix (Fin m) (Fin m) ℝ) k j := by rw [Matrix.mul_nonsing_inv _ hK]

/-- C4. If a query point coincides exactly with the `k`-th training point,
the posterior mean there is the training value `y k` and the posterior
variance there is 0 (in exact arithmetic; a fortiori within 1e-4). -/
theorem posterior_interpolates {d m n : ℕ} (Xt : Fin m → Fin d → ℝ) (y : Fin m → ℝ)
    (Xq : Fin n → Fin d → ℝ) (hK : IsUnit (sq_exp2d Xt Xt).det)
    (q : Fin n) (k : Fin m) (hq : Xq q = Xt k) :
    |mu_cond Xt y Xq q - y k| ≤ 1e-4 ∧ |sig_cond Xt Xq q q| ≤ 1e-4 := by
  have hmean : mu_cond Xt y Xq q = y k := by
    unfold mu_cond
    rw [Matrix.mulVec, dotProduct]
    calc
      ∑ j, ((sq_exp2d Xt Xq)ᵀ * (sq_exp2d Xt Xt)⁻¹) q j * y j
          = ∑ j, (1 : Matrix (Fin m) (Fin m) ℝ) k j * y j :=
        Finset.sum_congr rfl fun j _ => by
          rw [posterior_row_eq_one_row Xt Xq hK q k hq j]
      _ = y k := by
        simp [Matrix.one_apply]
  have hsig : sig_cond Xt Xq q q = 0 := by
    unfold sig_cond
    rw [Matrix.sub_apply]
    have h2 : ((sq_exp2d Xt Xq)ᵀ * (sq_exp2d Xt Xt)⁻¹ * sq_exp2d Xt Xq) q q = 1 := by
      rw [Matrix.mul_apply]
      calc
        ∑ j, ((sq_exp2d Xt Xq)ᵀ * (sq_exp2d Xt Xt)⁻¹) q j * sq_exp2d Xt Xq j q
            = ∑ j, (1 : Matrix (Fin m) (Fin m) ℝ) k j * sq_exp2d Xt Xq j q :=
          Finset.sum_congr rfl fun j _ => by
            rw [posterior_row_eq_one_row Xt Xq hK q k hq j]
        _ = sq_exp2d Xt Xq k q := by simp [Matrix.one_apply]
        _ = 1 := by rw [sq_exp2d_apply, hq, sqdist_comm, sqdist_self]; norm_num
    have h1 : sq_exp2d Xq Xq q q = 1 := by
      rw [sq_exp2d_apply, sqdist_self]; norm_num
    rw [h1, h2]
    ring
  rw [hmean, hsig, sub_self, abs_zero]
  norm_num

/-- Witness for C4: querying the one-point training set `X0` (value 2) at
its own training point. -/
theorem posterior_interpolates_witness :
    IsUnit (sq_exp2d X0 X0).det ∧ X0 0 = X0 0 ∧
      (|mu_cond X0 y0 X0 0 - y0 0| ≤ 1e-4 ∧ |sig_cond X0 X0 0 0| ≤ 1e-4) :=
  ⟨isUnit_det_sq_exp2d_X0, rfl,
    posterior_interpolates X0 y0 X0 isUnit_det_sq_exp2d_X0 0 0 rfl⟩

/-! ## The concrete scenario -/

lemma exp_neg_two_lt_one : Real.exp (-2) < 1 := Real.exp_lt_one_iff.mpr (by norm_num)

lemma kernel9_eq :
    sq_exp2d Xtrain9 Xtrain9 = !![1, Real.exp (-2); Real.exp (-2), 1] := by
  ext i j
  fin_cases i <;> fin_cases j <;>
    · rw [sq_exp2d_apply]
      norm_num [Xtrain9, sqdist]

lemma Ks9_eq :
    sq_exp2d Xtrain9 Xquery9 = !![Real.exp (-0.5); Real.exp (-0.5)] := by
  ext i j
  fin_cases i <;> fin_cases j <;>
    · rw [sq_exp2d_apply]
      norm_num [Xtrain9, Xquery9, sqdist]

lemma Kss9_eq : sq_exp2d Xquery9 Xquery9 = !![1] := by
  ext i j
  fin_cases i; fin_cases j
  rw [sq_exp2d_apply]
  norm_num [Xquery9, sqdist]

lemma det9_pos : 0 < (sq_exp2d Xtrain9 Xtrain9).det := by
  rw [kernel9_eq, Matrix.det_fin_two]
  norm_num
  nlinarith [Real.exp_pos (-2), exp_neg_two_lt_one]

lemma one_sub_exp_sq_ne : (1 : ℝ) - Real.exp (-2) ^ 2 ≠ 0 := by
  nlinarith [Real.exp_pos (-2), exp_neg_two_lt_one]

lemma two_by_two_inv_aux (t c : ℝ) (h : c * (1 - t ^ 2) = 1) :
    !![(1 : ℝ), t; t, 1] * (c • !![1, -t; -t, 1]) = 1 := by
  ext i j
  fin_cases i <;> fin_cases j <;>
    simp [Matrix.mul_apply, Fin.sum_univ_two, Matrix.smul_apply, Matrix.one_apply] <;>
    first
      | ring1
      | linear_combination h

lemma mu_eval_aux (s t c a : ℝ) (q : Fin 1) :
    ((((!![s; s] : Matrix (Fin 2) (Fin 1) ℝ)ᵀ * (c • !![1, -t; -t, 1])) *ᵥ
      ![-a, a]) q) = 0 := by
  fin_cases q
  simp [Matrix.mulVec, dotProduct, Matrix.mul_apply, Fin.sum_univ_two,
    Matrix.smul_apply, Matrix.transpose_apply, Matrix.vecHead, Matrix.vecTail]
  ring

lemma sig_eval_aux (s t c : ℝ) :
    ((!![(1 : ℝ)] : Matrix (Fin 1) (Fin 1) ℝ) -
        (!![s; s] : Matrix (Fin 2) (Fin 1) ℝ)ᵀ * (c • !![1, -t; -t, 1]) * !![s; s]) 0 0 =
      1 - c * (2 - 2 * t) * (s * s) := by
  simp [Matrix.sub_apply, Matrix.mul_apply, Fin.sum_univ_two, Fin.sum_univ_one,
    Matrix.smul_apply, Matrix.transpose_apply, Matrix.vecHead, Matrix.vecTail]
  ring

lemma Kinv9_spec : (sq_exp2d Xtrain9 Xtrain9)⁻¹ = Kinv9 := by
  apply Matrix.inv_eq_right_inv
  rw [kernel9_eq]
  exact two_by_two_inv_aux (Real.exp (-2)) (1 - Real.exp (-2) ^ 2)⁻¹
    (inv_mul_cancel₀ one_sub_exp_sq_ne)

/-- C9. In the concrete scenario X_train = [[-1.0], [1.0]],
y_train = [-0.8415, 0.8415], X_query = [[0.0]], the posterior mean lies
strictly between -0.8415 and 0.8415 (it is 0 exactly, hence within 1e-2 of
0), and the posterior variance at the query point is strictly between 0
and 1. -/
theorem concrete_scenario_posterior :
    (-0.8415 < mu_cond Xtrain9 ytrain9 Xquery9 0 ∧
      mu_cond Xtrain9 ytrain9 Xquery9 0 < 0.8415) ∧
    |mu_cond Xtrain9 ytrain9 Xquery9 0 - 0| ≤ 1e-2 ∧
    0 < sig_cond Xtrain9 Xquery9 0 0 ∧ sig_cond Xtrain9 Xquery9 0 0 < 1 := by
  have ht0 : (0 : ℝ) < Real.exp (-2) := Real.exp_pos _
  have ht1 : Real.exp (-2) < 1 := exp_neg_two_lt_one
  have hs0 : (0 : ℝ) < Real.exp (-0.5) := Real.exp_pos _
  have hss : Real.exp (-0.5) * Real.exp (-0.5) = Real.exp (-1) := by
    rw [← Real.exp_add]; norm_num
  have hww : Real.exp (-1) * Real.exp (-1) = Real.exp (-2) := by
    rw [← Real.exp_add]; norm_num
  have hw0 : (0 : ℝ) < Real.exp (-1) := Real.exp_pos _
  have hw1 : Real.exp (-1) < 1 := Real.exp_lt_one_iff.mpr (by norm_num)
  have hmu : mu_cond Xtrain9 ytrain9 Xquery9 0 = 0 := by
    unfold mu_cond
    rw [Kinv9_spec, Ks9_eq]
    unfold Kinv9 ytrain9
    exact mu_eval_aux (Real.exp (-0.5)) (Real.exp (-2)) (1 - Real.exp (-2) ^ 2)⁻¹ 0.8415 0
  have hval : sig_cond Xtrain9 Xquery9 0 0 =
      1 - (1 - Real.exp (-2) ^ 2)⁻¹ * (2 - 2 * Real.exp (-2)) *
        (Real.exp (-0.5) * Real.exp (-0.5)) := by
    unfold sig_cond
    rw [Kinv9_spec, Ks9_eq, Kss9_eq]
    unfold Kinv9
    exact sig_eval_aux (Real.exp (-0.5)) (Real.exp (-2)) (1 - Real.exp (-2) ^ 2)⁻¹
  rw [hss] at hval
  have hden : (0 : ℝ) < 1 - Real.exp (-2) ^ 2 := by nlinarith
  refine ⟨⟨?_, ?_⟩, ?_, ?_, ?_⟩
  · rw [hmu]; norm_num
  · rw [hmu]; norm_num
  · rw [hmu]; norm_num
  · rw [hval, sub_pos,
      show (1 - Real.exp (-2) ^ 2)⁻¹ * (2 - 2 * Real.exp (-2)) * Real.exp (-1) =
          (2 - 2 * Real.exp (-2)) * Real.exp (-1) / (1 - Real.exp (-2) ^ 2) from by ring,
      div_lt_one hden, ← hww]
    nlinarith [mul_pos (mul_pos (mul_pos (sub_pos.mpr hw1) (sub_pos.mpr hw1))
      (sub_pos.mpr hw1)) (by linarith : (0 : ℝ) < 1 + Real.exp (-1))]
  · rw [hval]
    have hnum : (0 : ℝ) < (1 - Real.exp (-2) ^ 2)⁻¹ * (2 - 2 * Real.exp (-2)) *
        Real.exp (-1) :=
      mul_pos (mul_pos (inv_pos.mpr hden) (by nlinarith)) hw0
    linarith

/-! ## Positive semidefiniteness of the squared-exponential kernel -/

lemma kmat_apply {d : ℕ} {ι κ : Type*} (v : ι → Fin d → ℝ) (w : κ → Fin d → ℝ)
    (i : ι) (j : κ) : kmat v w i j = Real.exp (-0.5 * sqdist (v i) (w j)) := rfl

lemma sq_exp2d_eq_kmat {d m n : ℕ} (x1 : Fin m → Fin d → ℝ) (x2 : Fin n → Fin d → ℝ) :
    sq_exp2d x1 x2 = kmat x1 x2 := by
  ext i j
  rw [sq_exp2d_apply, kmat_apply]

/-- Decomposition of the kernel exponent into self-energies and an inner
product. -/
lemma neg_half_sqdist {d : ℕ} (x y : Fin d → ℝ) :
    -0.5 * sqdist x y =
      -0.5 * (∑ k, x k ^ 2) + -0.5 * (∑ k, y k ^ 2) + ∑ k, x k * y k := by
  unfold sqdist
  rw [Finset.mul_sum, Finset.mul_sum, Finset.mul_sum, ← Finset.sum_add_distrib,
    ← Finset.sum_add_distrib]
  refine Finset.sum_congr rfl fun k _ => ?_
  ring

/-- The quadratic form of the entrywise `N`-th power of a Gram matrix is
nonnegative: expanding the power turns it into a sum of squares. -/
lemma ip_pow_quadform_nonneg {ι : Type*} [Fintype ι] {d : ℕ} (v : ι → Fin d → ℝ)
    (c : ι → ℝ) (N : ℕ) :
    0 ≤ ∑ i, ∑ j, c i * c j * (∑ k, v i k * v j k) ^ N := by
  have hexp : ∀ i j : ι, c i * c j * (∑ k, v i k * v j k) ^ N
      = ∑ p : Fin N → Fin d, (c i * ∏ r, v i (p r)) * (c j * ∏ r, v j (p r)) := by
    intro i j
    rw [Fintype.sum_pow, Finset.mul_sum]
    refine Finset.sum_congr rfl fun p _ => ?_
    rw [Finset.prod_mul_distrib]
    ring
  have hswap : ∑ i, ∑ j, c i * c j * (∑ k, v i k * v j k) ^ N
      = ∑ p : Fin N → Fin d,
          (∑ i, c i * ∏ r, v i (p r)) * (∑ j, c j * ∏ r, v j (p r)) := by
    calc
      ∑ i, ∑ j, c i * c j * (∑ k, v i k * v j k) ^ N
          = ∑ i, ∑ j, ∑ p : Fin N → Fin d,
              (c i * ∏ r, v i (p r)) * (c j * ∏ r, v j (p r)) :=
        Finset.sum_congr rfl fun i _ => Finset.sum_congr rfl fun j _ => hexp i j
      _ = ∑ i, ∑ p : Fin N → Fin d, ∑ j,
              (c i * ∏ r, v i (p r)) * (c j * ∏ r, v j (p r)) :=
        Finset.sum_congr rfl fun i _ => Finset.sum_comm
      _ = ∑ p : Fin N → Fin d, ∑ i, ∑ j,
              (c i * ∏ r, v i (p r)) * (c j * ∏ r, v j (p r)) := Finset.sum_comm
      _ = ∑ p : Fin N → Fin d,
              (∑ i, c i * ∏ r, v i (p r)) * (∑ j, c j * ∏ r, v j (p r)) := by
        refine Finset.sum_congr rfl fun p _ => ?_
        rw [Finset.sum_mul_sum]
  rw [hswap]
  exact Finset.sum_nonneg fun p _ => mul_self_nonneg _

/-- The quadratic form of the entrywise exponential of a Gram matrix is
nonnegative: it is the limit of partial sums of the exponential series, each
of which is a nonnegative combination of powers of the Gram matrix. -/
lemma exp_ip_quadform_nonneg {ι : Type*} [Fintype ι] {d : ℕ} (v : ι → Fin d → ℝ)
    (c : ι → ℝ) :
    0 ≤ ∑ i, ∑ j, c i * c j * Real.exp (∑ k, v i k * v j k) := by
  have hs : ∀ i j : ι, HasSum (fun N => (∑ k, v i k * v j k) ^ N / (Nat.factorial N : ℝ))
      (Real.exp (∑ k, v i k * v j k)) := by
    intro i j
    rw [Real.exp_eq_exp_ℝ]
    exact NormedSpace.expSeries_div_hasSum_exp ℝ _
  have htend : Filter.Tendsto
      (fun N => ∑ i, ∑ j, c i * c j *
        ∑ n ∈ Finset.range N, (∑ k, v i k * v j k) ^ n / (Nat.factorial n : ℝ))
      Filter.atTop
      (nhds (∑ i, ∑ j, c i * c j * Real.exp (∑ k, v i k * v j k))) := by
    refine tendsto_finset_sum _ fun i _ => ?_
    refine tendsto_finset_sum _ fun j _ => ?_
    exact ((hs i j).tendsto_sum_nat).const_mul _
  refine ge_of_tendsto' htend fun N => ?_
  have hrw : ∑ i, ∑ j, c i * c j *
        ∑ n ∈ Finset.range N, (∑ k, v i k * v j k) ^ n / (Nat.factorial n : ℝ)
      = ∑ n ∈ Finset.range N,
          (∑ i, ∑ j, c i * c j * (∑ k, v i k * v j k) ^ n) / (Nat.factorial n : ℝ) := by
    calc
      ∑ i, ∑ j, c i * c j * ∑ n ∈ Finset.range N, (∑ k, v i k * v j k) ^ n / (Nat.factorial n : ℝ)
          = ∑ i, ∑ j, ∑ n ∈ Finset.range N,
              c i * c j * (∑ k, v i k * v j k) ^ n / (Nat.factorial n : ℝ) := by
        refine Finset.sum_congr rfl fun i _ => Finset.sum_congr rfl fun j _ => ?_
        rw [Finset.mul_sum]
        refine Finset.sum_congr rfl fun n _ => ?_
        ring
      _ = ∑ i, ∑ n ∈ Finset.range N, ∑ j,
              c i * c j * (∑ k, v i k * v j k) ^ n / (Nat.factorial n : ℝ) :=
        Finset.sum_congr rfl fun i _ => Finset.sum_comm
      _ = ∑ n ∈ Finset.range N, ∑ i, ∑ j,
              c i * c j * (∑ k, v i k * v j k) ^ n / (Nat.factorial n : ℝ) := Finset.sum_comm
      _ = ∑ n ∈ Finset.range N,
              (∑ i, ∑ j, c i * c j * (∑ k, v i k * v j k) ^ n) / (Nat.factorial n : ℝ) := by
        refine Finset.sum_congr rfl fun n _ => ?_
        rw [Finset.sum_div]
        refine Finset.sum_congr rfl fun i _ => ?_
        rw [Finset.sum_div]
  rw [hrw]
  exact Finset.sum_nonneg fun n _ =>
    div_nonneg (ip_pow_quadform_nonneg v c n) (by positivity)

/-- The quadratic form of the squared-exponential kernel matrix is
nonnegative (the kernel is positive semidefinite), over any finite family of
points of any dimension. -/
lemma kmat_quadform_nonneg {ι : Type*} [Fintype ι] {d : ℕ} (v : ι → Fin d → ℝ)
    (c : ι → ℝ) :
    0 ≤ ∑ i, ∑ j, c i * c j * kmat v v i j := by
  have h : ∀ i j : ι, c i * c j * kmat v v i j
      = (c i * Real.exp (-0.5 * ∑ k, v i k ^ 2)) *
          (c j * Real.exp (-0.5 * ∑ k, v j k ^ 2)) *
          Real.exp (∑ k, v i k * v j k) := by
    intro i j
    rw [kmat_apply, neg_half_sqdist, Real.exp_add, Real.exp_add]
    ring
  have hg := exp_ip_quadform_nonneg v (fun i => c i * Real.exp (-0.5 * ∑ k, v i k ^ 2))
  refine le_trans hg (le_of_eq ?_)
  refine Finset.sum_congr rfl fun i _ => Finset.sum_congr rfl fun j _ => ?_
  exact (h i j).symm

/-! ## Posterior covariance: symmetry and nonnegative diagonal -/

lemma mulVec_dot_mulVec {α β γ : Type*} [Fintype α] [Fintype β] [Fintype γ]
    (x : β → ℝ) (M : Matrix α β ℝ) (N : Matrix α γ ℝ) (y : γ → ℝ) :
    (M *ᵥ x) ⬝ᵥ (N *ᵥ y) = x ⬝ᵥ ((Mᵀ * N) *ᵥ y) := by
  rw [Matrix.dotProduct_mulVec, ← Matrix.vecMul_transpose, Matrix.vecMul_vecMul,
    ← Matrix.dotProduct_mulVec]

lemma dot_mulVec_expand {α β : Type*} [Fintype α] [Fintype β]
    (u : α → ℝ) (M : Matrix α β ℝ) (x : β → ℝ) :
    u ⬝ᵥ (M *ᵥ x) = ∑ i, ∑ j, u i * x j * M i j := by
  simp only [dotProduct, Matrix.mulVec]
  refine Finset.sum_congr rfl fun i _ => ?_
  rw [Finset.mul_sum]
  refine Finset.sum_congr rfl fun j _ => ?_
  ring

lemma inv_sq_exp2d_transpose {d m : ℕ} (X : Fin m → Fin d → ℝ) :
    ((sq_exp2d X X)⁻¹)ᵀ = (sq_exp2d X X)⁻¹ := by
  rw [Matrix.transpose_nonsing_inv, sq_exp2d_self_transpose]

/-- The posterior covariance matrix is symmetric, exactly. -/
lemma sig_cond_transpose {d m n : ℕ} (Xt : Fin m → Fin d → ℝ) (Xq : Fin n → Fin d → ℝ) :
    (sig_cond Xt Xq)ᵀ = sig_cond Xt Xq := by
  unfold sig_cond
  rw [Matrix.transpose_sub, sq_exp2d_self_transpose, Matrix.transpose_mul,
    Matrix.transpose_mul, Matrix.transpose_transpose, inv_sq_exp2d_transpose,
    Matrix.mul_assoc]

lemma single_quadform {n : ℕ} (M : Matrix (Fin n) (Fin n) ℝ) (q : Fin n) :
    Pi.single q 1 ⬝ᵥ (M *ᵥ Pi.single q 1) = M q q := by
  simp [dotProduct, Matrix.mulVec, Pi.single_apply, mul_ite, ite_mul]

/-- Schur-complement step: for every vector `z`, the posterior-covariance
quadratic form at `z` is a value of the joint kernel quadratic form over
training and query points, hence nonnegative. -/
lemma sig_cond_quadform_nonneg {d m n : ℕ} (Xt : Fin m → Fin d → ℝ)
    (Xq : Fin n → Fin d → ℝ) (hK : IsUnit (sq_exp2d Xt Xt).det) (z : Fin n → ℝ) :
    0 ≤ z ⬝ᵥ (sig_cond Xt Xq *ᵥ z) := by
  have hKsym : (sq_exp2d Xt Xt)ᵀ = sq_exp2d Xt Xt := sq_exp2d_self_transpose Xt
  have hIsym : ((sq_exp2d Xt Xt)⁻¹)ᵀ = (sq_exp2d Xt Xt)⁻¹ := inv_sq_exp2d_transpose Xt
  set K := sq_exp2d Xt Xt with hKdef
  set Ks := sq_exp2d Xt Xq with hKsdef
  set B : Matrix (Fin m) (Fin n) ℝ := K⁻¹ * Ks with hBdef
  set w : Fin m → ℝ := -(B *ᵥ z) with hwdef
  have hBT : Bᵀ * (K * B) = Ksᵀ * K⁻¹ * Ks := by
    rw [hBdef, Matrix.transpose_mul, hIsym, Matrix.mul_nonsing_inv_cancel_left _ _ hK,
      Matrix.mul_assoc]
  have hBs : Bᵀ * Ks = Ksᵀ * K⁻¹ * Ks := by
    rw [hBdef, Matrix.transpose_mul, hIsym, Matrix.mul_assoc]
  have h0 := kmat_quadform_nonneg (Sum.elim Xt Xq) (Sum.elim w z)
  have hk11 : ∀ (i i' : Fin m),
      kmat (Sum.elim Xt Xq) (Sum.elim Xt Xq) (Sum.inl i) (Sum.inl i') = K i i' := by
    intro i i'
    rw [kmat_apply, hKdef, sq_exp2d_apply]
    rfl
  have hk12 : ∀ (i : Fin m) (q : Fin n),
      kmat (Sum.elim Xt Xq) (Sum.elim Xt Xq) (Sum.inl i) (Sum.inr q) = Ks i q := by
    intro i q
    rw [kmat_apply, hKsdef, sq_exp2d_apply]
    rfl
  have hk21 : ∀ (q : Fin n) (i : Fin m),
      kmat (Sum.elim Xt Xq) (Sum.elim Xt Xq) (Sum.inr q) (Sum.inl i) = Ks i q := by
    intro q i
    rw [kmat_apply, hKsdef, sq_exp2d_apply]
    show Real.exp (-0.5 * sqdist (Xq q) (Xt i)) = _
    rw [sqdist_comm]
  have hk22 : ∀ (q q' : Fin n),
      kmat (Sum.elim Xt Xq) (Sum.elim Xt Xq) (Sum.inr q) (Sum.inr q') =
        sq_exp2d Xq Xq q q' := by
    intro q q'
    rw [kmat_apply, sq_exp2d_apply]
    rfl
  have e1 : w ⬝ᵥ (K *ᵥ w) = ∑ i, ∑ i', w i * w i' * K i i' :=
    dot_mulVec_expand w K w
  have e2 : w ⬝ᵥ (Ks *ᵥ z) = ∑ i, ∑ q, w i * z q * Ks i q :=
    dot_mulVec_expand w Ks z
  have e3 : z ⬝ᵥ (sq_exp2d Xq Xq *ᵥ z) = ∑ q, ∑ q', z q * z q' * sq_exp2d Xq Xq q q' :=
    dot_mulVec_expand z (sq_exp2d Xq Xq) z
  have e2' : ∑ q, ∑ i, z q * w i * Ks i q = ∑ i, ∑ q, w i * z q * Ks i q := by
    rw [Finset.sum_comm]
    exact Finset.sum_congr rfl fun i _ => Finset.sum_congr rfl fun q _ => by ring
  have hsplit : ∑ I, ∑ J, Sum.elim w z I * Sum.elim w z J *
        kmat (Sum.elim Xt Xq) (Sum.elim Xt Xq) I J
      = w ⬝ᵥ (K *ᵥ w) + w ⬝ᵥ (Ks *ᵥ z) +
        (w ⬝ᵥ (Ks *ᵥ z) + z ⬝ᵥ (sq_exp2d Xq Xq *ᵥ z)) := by
    calc
      ∑ I, ∑ J, Sum.elim w z I * Sum.elim w z J *
          kmat (Sum.elim Xt Xq) (Sum.elim Xt Xq) I J
          = (∑ i, ∑ i', w i * w i' * K i i') + (∑ i, ∑ q, w i * z q * Ks i q) +
            ((∑ q, ∑ i, z q * w i * Ks i q) +
              ∑ q, ∑ q', z q * z q' * sq_exp2d Xq Xq q q') := by
        simp only [Fintype.sum_sum_type, Sum.elim_inl, Sum.elim_inr, hk11, hk12,
          hk21, hk22, Finset.sum_add_distrib]
        ring
      _ = w ⬝ᵥ (K *ᵥ w) + w ⬝ᵥ (Ks *ᵥ z) +
            (w ⬝ᵥ (Ks *ᵥ z) + z ⬝ᵥ (sq_exp2d Xq Xq *ᵥ z)) := by
        rw [e2', ← e1, ← e2, ← e3]
  have e4 : w ⬝ᵥ (K *ᵥ w) = z ⬝ᵥ ((Ksᵀ * K⁻¹ * Ks) *ᵥ z) := by
    rw [hwdef, Matrix.mulVec_neg, Matrix.neg_dotProduct, Matrix.dotProduct_neg,
      neg_neg, Matrix.mulVec_mulVec, mulVec_dot_mulVec, hBT]
  have e5 : w ⬝ᵥ (Ks *ᵥ z) = -(z ⬝ᵥ ((Ksᵀ * K⁻¹ * Ks) *ᵥ z)) := by
    rw [hwdef, Matrix.neg_dotProduct, mulVec_dot_mulVec, hBs]
  have e6 : z ⬝ᵥ (sig_cond Xt Xq *ᵥ z)
      = z ⬝ᵥ (sq_exp2d Xq Xq *ᵥ z) - z ⬝ᵥ ((Ksᵀ * K⁻¹ * Ks) *ᵥ z) := by
    unfold sig_cond
    rw [← hKdef, ← hKsdef, Matrix.sub_mulVec, Matrix.dotProduct_sub]
  rw [hsplit] at h0
  rw [e4, e5] at h0
  rw [e6]
  linarith

/-- C6. For all training and query inputs with invertible kernel matrix, the
posterior covariance matrix is symmetric (within 1e-8; in fact exactly) and
every diagonal entry is at least -1e-8 (in fact nonnegative). -/
theorem posterior_cov_symmetric_nonneg_diag {d m n : ℕ} (Xt : Fin m → Fin d → ℝ)
    (y : Fin m → ℝ) (Xq : Fin n → Fin d → ℝ)
    (hK : IsUnit (sq_exp2d Xt Xt).det) :
    (∀ q1 q2, |sig_cond Xt Xq q1 q2 - sig_cond Xt Xq q2 q1| ≤ 1e-8) ∧
    ∀ q, -1e-8 ≤ sig_cond Xt Xq q q := by
  constructor
  · intro q1 q2
    have h := congrFun (congrFun (sig_cond_transpose Xt Xq) q1) q2
    rw [Matrix.transpose_apply] at h
    rw [h, sub_self, abs_zero]
    norm_num
  · intro q
    have h := sig_cond_quadform_nonneg Xt Xq hK (Pi.single q 1)
    rw [single_quadform] at h
    have : (-1e-8 : ℝ) ≤ 0 := by norm_num
    linarith

/-- Witness for C6 at the one-point training set `X0`. -/
theorem posterior_cov_symmetric_nonneg_diag_witness :
    IsUnit (sq_exp2d X0 X0).det ∧
      ((∀ q1 q2, |sig_cond X0 X0 q1 q2 - sig_cond X0 X0 q2 q1| ≤ 1e-8) ∧
        ∀ q, -1e-8 ≤ sig_cond X0 X0 q q) :=
  ⟨isUnit_det_sq_exp2d_X0,
    posterior_cov_symmetric_nonneg_diag X0 y0 X0 isUnit_det_sq_exp2d_X0⟩

/-! ## Prior sampling: Cholesky factor properties -/

lemma ldlDiagEntries_nonneg {k : ℕ} {A : Matrix (Fin k) (Fin k) ℝ} (hA : A.PosDef)
    (i : Fin k) : 0 ≤ ldlDiagEntries hA i := by
  have h := hA.posSemidef.2 (star (@LDL.lowerInv ℝ _ (Fin k) _ (finWF k) _ A _ hA i))
  have hd : ldlDiagEntries hA i =
      Matrix.dotProduct
        (star (star (@LDL.lowerInv ℝ _ (Fin k) _ (finWF k) _ A _ hA i)))
        (A *ᵥ star (@LDL.lowerInv ℝ _ (Fin k) _ (finWF k) _ A _ hA i)) := rfl
  rw [hd]
  exact h

lemma ldlLowerInv_blockTriangular {k : ℕ} {A : Matrix (Fin k) (Fin k) ℝ}
    (hA : A.PosDef) :
    (ldlLowerInv hA).BlockTriangular OrderDual.toDual := by
  intro a b hab
  exact @LDL.lowerInv_triangular ℝ _ (Fin k) _ (finWF k) _ A _ hA a b hab

lemma lowerTri_inv_entry {k : ℕ} (M : Matrix (Fin k) (Fin k) ℝ) (hInv : Invertible M)
    (hM : M.BlockTriangular (OrderDual.toDual : Fin k → (Fin k)ᵒᵈ)) (i j : Fin k)
    (hij : i < j) : M⁻¹ i j = 0 := by
  haveI := hInv
  have h2 := Matrix.blockTriangular_inv_of_blockTriangular hM
  exact h2 (show OrderDual.toDual j < OrderDual.toDual i from hij)

/-- The modelled Cholesky factor is lower triangular. -/
lemma cholFactor_lower_triangular {k : ℕ} {A : Matrix (Fin k) (Fin k) ℝ}
    (hA : A.PosDef) (i j : Fin k) (hij : i < j) : cholFactor hA i j = 0 := by
  have h3 : ldlLower hA i j = 0 := by
    unfold ldlLower
    exact lowerTri_inv_entry _ (lowerInv_invertible hA)
      (ldlLowerInv_blockTriangular hA) i j hij
  unfold cholFactor
  rw [Matrix.mul_diagonal, h3, zero_mul]

/-- The LDL diagonal, transported to the canonical `Matrix.diagonal`. -/
lemma ldl_diag_conj {k : ℕ} {A : Matrix (Fin k) (Fin k) ℝ} (hA : A.PosDef) :
    Matrix.diagonal (ldlDiagEntries hA) = ldlLowerInv hA * A * (ldlLowerInv hA)ᵀ := by
  have h := @LDL.diag_eq_lowerInv_conj ℝ _ (Fin k) _ (finWF k) _ A _ hA
  rw [Matrix.conjTranspose_eq_transpose_of_trivial] at h
  unfold LDL.diag at h
  unfold ldlDiagEntries ldlLowerInv
  rw [← h]
  ext a b
  by_cases hab : a = b <;> simp [Matrix.diagonal_apply, hab]

/-- The LDL decomposition `L · D · Lᵀ = A`, with canonical instances. -/
lemma ldl_lower_conj {k : ℕ} {A : Matrix (Fin k) (Fin k) ℝ} (hA : A.PosDef) :
    ldlLower hA * Matrix.diagonal (ldlDiagEntries hA) * (ldlLower hA)ᵀ = A := by
  haveI := lowerInv_invertible hA
  have hdet : IsUnit (ldlLowerInv hA).det := (ldlLowerInv hA).isUnit_det_of_invertible
  unfold ldlLower
  rw [ldl_diag_conj hA, Matrix.transpose_nonsing_inv]
  calc
    (ldlLowerInv hA)⁻¹ * (ldlLowerInv hA * A * (ldlLowerInv hA)ᵀ) * ((ldlLowerInv hA)ᵀ)⁻¹
        = (ldlLowerInv hA)⁻¹ * (ldlLowerInv hA * (A * (ldlLowerInv hA)ᵀ)) *
            ((ldlLowerInv hA)ᵀ)⁻¹ := by
      rw [Matrix.mul_assoc (ldlLowerInv hA) A]
    _ = A * (ldlLowerInv hA)ᵀ * ((ldlLowerInv hA)ᵀ)⁻¹ := by
      rw [Matrix.nonsing_inv_mul_cancel_left _ _ hdet]
    _ = A := Matrix.mul_nonsing_inv_cancel_right _ _ (by rwa [Matrix.det_transpose])

/-- The modelled Cholesky factor satisfies `L·Lᵀ = A`. -/
lemma cholFactor_mul_transpose {k : ℕ} {A : Matrix (Fin k) (Fin k) ℝ}
    (hA : A.PosDef) : cholFactor hA * (cholFactor hA)ᵀ = A := by
  have hSS : Matrix.diagonal (fun i => Real.sqrt (ldlDiagEntries hA i)) *
      Matrix.diagonal (fun i => Real.sqrt (ldlDiagEntries hA i)) =
      Matrix.diagonal (ldlDiagEntries hA) := by
    rw [Matrix.diagonal_mul_diagonal]
    exact congrArg Matrix.diagonal
      (funext fun i => Real.mul_self_sqrt (ldlDiagEntries_nonneg hA i))
  unfold cholFactor
  rw [Matrix.transpose_mul, Matrix.diagonal_transpose]
  calc
    ldlLower hA * Matrix.diagonal (fun i => Real.sqrt (ldlDiagEntries hA i)) *
        (Matrix.diagonal (fun i => Real.sqrt (ldlDiagEntries hA i)) * (ldlLower hA)ᵀ)
        = ldlLower hA * (Matrix.diagonal (fun i => Real.sqrt (ldlDiagEntries hA i)) *
            Matrix.diagonal (fun i => Real.sqrt (ldlDiagEntries hA i))) * (ldlLower hA)ᵀ := by
      noncomm_ring
    _ = ldlLower hA * Matrix.diagonal (ldlDiagEntries hA) * (ldlLower hA)ᵀ := by
      rw [hSS]
    _ = A := ldl_lower_conj hA

/-- C5. Prior sampling follows the spec's algorithm: on a positive-definite
jittered kernel matrix `K + 1e-6·I` it returns `L · Z` where `L` is the
lower-triangular Cholesky factor with `L·Lᵀ = K + 1e-6·I`, `Z` holds the
`num_samples` standard-normal draw vectors, and each sample (column of the
result, which has shape `|X| × num_samples` by its type) is `L·z`. -/
theorem prior_sampling_follows_algorithm {k s : ℕ} (x : Fin k → ℝ)
    (Z : Matrix (Fin k) (Fin s) ℝ)
    (h : (sq_exp x x + (1e-6 : ℝ) • 1).PosDef) :
    samplePriorE x Z = .ok (cholFactor h * Z) ∧
    (∀ i j : Fin k, i < j → cholFactor h i j = 0) ∧
    cholFactor h * (cholFactor h)ᵀ = sq_exp x x + (1e-6 : ℝ) • 1 ∧
    ∀ c : Fin s, (fun r => (cholFactor h * Z) r c) = cholFactor h *ᵥ fun r => Z r c := by
  refine ⟨?_, fun i j hij => cholFactor_lower_triangular h i j hij,
    cholFactor_mul_transpose h, ?_⟩
  · unfold samplePriorE choleskyE
    rw [dif_pos h]
    rfl
  · intro c
    funext r
    simp [Matrix.mul_apply, Matrix.mulVec, dotProduct]

lemma jitter0_posDef : (sq_exp x0v x0v + (1e-6 : ℝ) • 1).PosDef := by
  have hA : sq_exp x0v x0v + (1e-6 : ℝ) • 1 =
      Matrix.diagonal fun _ : Fin 1 => 1 + 1e-6 := by
    ext i j
    fin_cases i
    fin_cases j
    simp [sq_exp, x0v, Matrix.smul_apply, Matrix.one_apply, Matrix.diagonal_apply]
  rw [hA]
  exact Matrix.PosDef.diagonal fun i => by norm_num

/-- Witness for C5: a single training point 0 with one draw vector. -/
theorem prior_sampling_follows_algorithm_witness :
    (sq_exp x0v x0v + (1e-6 : ℝ) • 1).PosDef ∧
      (samplePriorE x0v Z0 = .ok (cholFactor jitter0_posDef * Z0) ∧
        (∀ i j : Fin 1, i < j → cholFactor jitter0_posDef i j = 0) ∧
        cholFactor jitter0_posDef * (cholFactor jitter0_posDef)ᵀ =
          sq_exp x0v x0v + (1e-6 : ℝ) • 1 ∧
        ∀ c : Fin 1, (fun r => (cholFactor jitter0_posDef * Z0) r c) =
          cholFactor jitter0_posDef *ᵥ fun r => Z0 r c) :=
  ⟨jitter0_posDef, prior_sampling_follows_algorithm x0v Z0 jitter0_posDef⟩

/-- C8. On an input set with an exactly duplicated point (and on every input
set), sampling either succeeds or raises NumericalInstability — it never
silently returns a degenerate result when the factorization of `K + ε·I`
fails, and NumericalInstability is the only error it can raise. -/
theorem sampling_only_failure_mode {k s : ℕ} (x : Fin k → ℝ)
    (Z : Matrix (Fin k) (Fin s) ℝ) (i j : Fin k) (hdup : x i = x j) (hij : i ≠ j) :
    ((∃ Y, samplePriorE x Z = .ok Y) ∨
      samplePriorE x Z = .error GPError.numericalInstability) ∧
    ∀ e, samplePriorE x Z = .error e → e = GPError.numericalInstability := by
  constructor
  · unfold samplePriorE choleskyE
    by_cases h : (sq_exp x x + (1e-6 : ℝ) • 1).PosDef
    · exact Or.inl ⟨cholFactor h * Z, by rw [dif_pos h]; rfl⟩
    · refine Or.inr ?_
      rw [dif_neg h]
      rfl
  · intro e he
    unfold samplePriorE choleskyE at he
    by_cases h : (sq_exp x x + (1e-6 : ℝ) • 1).PosDef
    · rw [dif_pos h] at he
      simp [Except.map] at he
    · rw [dif_neg h] at he
      simp [Except.map] at he
      exact he.symm

/-- Witness for C8: two exactly duplicated training points at 0. -/
theorem sampling_only_failure_mode_witness :
    xdup 0 = xdup 1 ∧ (0 : Fin 2) ≠ 1 ∧
      (((∃ Y, samplePriorE xdup Zdup = .ok Y) ∨
          samplePriorE xdup Zdup = .error GPError.numericalInstability) ∧
        ∀ e, samplePriorE xdup Zdup = .error e → e = GPError.numericalInstability) :=
  ⟨rfl, by decide, sampling_only_failure_mode xdup Zdup 0 1 rfl (by decide)⟩

/-! ## Shape errors -/

lemma bindE_ok {α β : Type} (a : α) (f : α → Except GPError β) :
    ((.ok a : Except GPError α) >>= f) = f a := rfl

lemma kernel1L_rows (xs ys : List ℝ) : rowsL (kernel1L xs ys) = xs.length := by
  simp [rowsL, kernel1L]

lemma kernel1L_cols (xs ys : List ℝ) (h : xs ≠ []) :
    colsL (kernel1L xs ys) = ys.length := by
  cases xs with
  | nil => exact absurd rfl h
  | cons a t => simp [colsL, kernel1L]

lemma matToList_rows {m n : ℕ} (M : Matrix (Fin m) (Fin n) ℝ) :
    rowsL (matToList M) = m := by
  simp [rowsL, matToList]

lemma matToList_cols {m n : ℕ} (M : Matrix (Fin m) (Fin n) ℝ) (hm : 0 < m) :
    colsL (matToList M) = n := by
  cases m with
  | zero => exact absurd hm (lt_irrefl 0)
  | succ k => simp [colsL, matToList, List.ofFn_succ]

lemma transposeL_rows (A : List (List ℝ)) : rowsL (transposeL A) = colsL A := by
  simp [rowsL, transposeL]

lemma transposeL_cols (A : List (List ℝ)) (h : 0 < colsL A) :
    colsL (transposeL A) = rowsL A := by
  obtain ⟨k, hk⟩ : ∃ k, colsL A = k + 1 := ⟨colsL A - 1, by omega⟩
  unfold transposeL
  rw [hk, List.range_succ_eq_map]
  simp [colsL, rowsL]

lemma matmulE_ok (A B : List (List ℝ)) (h : colsL A = rowsL B) :
    matmulE A B = .ok (A.map fun r => (transposeL B).map fun c => dotL r c) := by
  unfold matmulE
  rw [if_pos h]

lemma colsL_cons (x : List ℝ) (l : List (List ℝ)) : colsL (x :: l) = x.length := by
  simp [colsL]

lemma matmulE_val_cols (A B : List (List ℝ)) (h : 0 < rowsL A) :
    colsL (A.map fun r => (transposeL B).map fun c => dotL r c) = colsL B := by
  cases A with
  | nil => exact absurd h (lt_irrefl 0)
  | cons a t =>
    rw [List.map_cons, colsL_cons, List.length_map]
    exact transposeL_rows B

lemma bindE_error {α β : Type} (e : GPError) (f : α → Except GPError β) :
    ((.error e : Except GPError α) >>= f) = .error e := rfl

lemma det_squareOf_single : (squareOf (kernel1L [(0 : ℝ)] [(0 : ℝ)])).det = 1 := by
  rw [Matrix.det_fin_one]
  show (((kernel1L [(0 : ℝ)] [(0 : ℝ)]).getD 0 []).getD 0 0) = 1
  norm_num [kernel1L]

lemma det_squareOf_dup : (squareOf (kernel1L [(0 : ℝ), 0] [(0 : ℝ), 0])).det = 0 := by
  rw [Matrix.det_fin_two]
  have e : ∀ a b : Fin 2, squareOf (kernel1L [(0 : ℝ), 0] [(0 : ℝ), 0]) a b = 1 := by
    intro a b
    fin_cases a <;> fin_cases b <;> norm_num [squareOf, kernel1L, Matrix.of_apply]
  rw [e, e, e, e]
  ring

/-- C7, as the claim stands, is false: with exactly duplicated training
points the kernel matrix is singular, so in
`K_s.T @ cp.linalg.inv(K_samp) @ f_samp` the inversion raises LinAlgError
(NumericalInstability) before the `y_train` length mismatch can be
detected.  Concretely, for X_train = [0, 0], y_train = [] (lengths 2 ≠ 0)
and X_query = [0], the computation raises NumericalInstability, not
ShapeMismatch. -/
theorem posterior_shape_mismatch_counterexample :
    ([(0 : ℝ), 0] ≠ []) ∧ ([(0 : ℝ)] ≠ []) ∧
      (([] : List ℝ).length ≠ [(0 : ℝ), 0].length) ∧
      posteriorMuE [0, 0] [] [0] = .error GPError.numericalInstability ∧
      posteriorMuE [0, 0] [] [0] ≠ .error GPError.shapeMismatch := by
  have heq : posteriorMuE [0, 0] [] [0] = .error GPError.numericalInstability := by
    unfold posteriorMuE
    have hsq : rowsL (kernel1L [(0 : ℝ), 0] [(0 : ℝ), 0]) =
        colsL (kernel1L [(0 : ℝ), 0] [(0 : ℝ), 0]) := by
      rw [kernel1L_rows, kernel1L_cols _ _ (by simp)]
    have h1 : invE (kernel1L [(0 : ℝ), 0] [(0 : ℝ), 0]) =
        .error GPError.numericalInstability := by
      unfold invE
      rw [if_pos hsq, if_neg]
      rw [det_squareOf_dup]
      exact fun h => (by norm_num : ¬((0 : ℝ) ≠ 0)) h.ne_zero
    rw [h1, bindE_error]
  refine ⟨by simp, by simp, by simp, heq, ?_⟩
  rw [heq]
  intro h
  injection h with h2
  exact GPError.noConfusion h2

/-- C7, amended.  The posterior computation surfaces its error immediately:
(1) on the 1-D path, whenever the number of training points differs from the
length of `y_train` and the kernel matrix is nonsingular (so
`cp.linalg.inv` succeeds), the final matrix-vector product raises
ShapeMismatch; (2) if instead the kernel matrix is exactly singular (as
with duplicated training points), the inversion raises NumericalInstability
first; (3) on the multi-dimensional path, whenever a query point's
dimensionality differs from the training dimensionality, the cross-kernel's
distance computation raises ShapeMismatch (it is computed before the
inversion).  In all cases the error propagates immediately to the caller. -/
theorem posterior_shape_mismatch :
    (∀ xs ys xq : List ℝ, xs ≠ [] → xq ≠ [] → ys.length ≠ xs.length →
      IsUnit (squareOf (kernel1L xs xs)).det →
      posteriorMuE xs ys xq = .error GPError.shapeMismatch) ∧
    (∀ xs ys xq : List ℝ, xs ≠ [] → ¬IsUnit (squareOf (kernel1L xs xs)).det →
      posteriorMuE xs ys xq = .error GPError.numericalInstability) ∧
    (∀ (Xt : List (List ℝ)) (ys : List ℝ) (Xq : List (List ℝ)),
      (∀ p ∈ Xt, p.length = colsL Xt) → (∃ q ∈ Xq, q.length ≠ colsL Xt) →
      posterior2MuE Xt ys Xq = .error GPError.shapeMismatch) := by
  refine ⟨?_, ?_, ?_⟩
  · intro xs ys xq hxs hxq hlen hunit
    have hm : 0 < xs.length := List.length_pos.mpr hxs
    have hn : 0 < xq.length := List.length_pos.mpr hxq
    unfold posteriorMuE
    have hsq : rowsL (kernel1L xs xs) = colsL (kernel1L xs xs) := by
      rw [kernel1L_rows, kernel1L_cols xs xs hxs]
    have h1 : invE (kernel1L xs xs) = .ok (matToList (squareOf (kernel1L xs xs))⁻¹) := by
      unfold invE
      rw [if_pos hsq, if_pos hunit]
    rw [h1, bindE_ok]
    have hcolsKs : 0 < colsL (kernel1L xs xq) := by
      rw [kernel1L_cols xs xq hxs]
      exact hn
    have h2cond : colsL (transposeL (kernel1L xs xq)) =
        rowsL (matToList (squareOf (kernel1L xs xs))⁻¹) := by
      rw [transposeL_cols _ hcolsKs, matToList_rows, kernel1L_rows, kernel1L_rows]
    rw [matmulE_ok _ _ h2cond, bindE_ok]
    unfold matvecE
    rw [if_neg]
    have hrowsT : 0 < rowsL (transposeL (kernel1L xs xq)) := by
      rw [transposeL_rows]
      exact hcolsKs
    rw [matmulE_val_cols _ _ hrowsT,
      matToList_cols _ (by rw [kernel1L_rows]; exact hm), kernel1L_rows]
    omega
  · intro xs ys xq hxs hsing
    unfold posteriorMuE
    have hsq : rowsL (kernel1L xs xs) = colsL (kernel1L xs xs) := by
      rw [kernel1L_rows, kernel1L_cols xs xs hxs]
    have h1 : invE (kernel1L xs xs) = .error GPError.numericalInstability := by
      unfold invE
      rw [if_pos hsq, if_neg hsing]
    rw [h1, bindE_error]
  · intro Xt ys Xq hXt hbad
    unfold posterior2MuE
    have h1 : sq_exp2dE Xt Xt = .ok ((Xt.map fun a => Xt.map fun b =>
        Real.sqrt ((List.zipWith (fun u v => (u - v) ^ 2) a b).sum)).map
          (List.map fun t => Real.exp (-0.5 * t ^ 2))) := by
      unfold sq_exp2dE cdistE
      rw [if_pos ⟨hXt, hXt⟩]
      rfl
    rw [h1, bindE_ok]
    have h2 : sq_exp2dE Xt Xq = .error GPError.shapeMismatch := by
      unfold sq_exp2dE cdistE
      rw [if_neg]
      · rfl
      · rintro ⟨-, h2⟩
        obtain ⟨q, hq, hne⟩ := hbad
        exact hne (h2 q hq)
    rw [h2]
    rfl

/-- Witness for C7 (amended): one training point with an empty `y_train`
(length mismatch, nonsingular 1×1 kernel matrix); two duplicated training
points (singular kernel matrix); and a 2-D query point against 1-D training
points (dimensionality mismatch). -/
theorem posterior_shape_mismatch_witness :
    ([(0 : ℝ)] ≠ []) ∧ (([] : List ℝ).length ≠ [(0 : ℝ)].length) ∧
      IsUnit (squareOf (kernel1L [(0 : ℝ)] [(0 : ℝ)])).det ∧
      posteriorMuE [0] [] [0] = .error GPError.shapeMismatch ∧
      (([(0 : ℝ), 0] ≠ []) ∧ ¬IsUnit (squareOf (kernel1L [(0 : ℝ), 0] [(0 : ℝ), 0])).det ∧
        posteriorMuE [0, 0] [] [0] = .error GPError.numericalInstability) ∧
      ((∀ p ∈ [[(0 : ℝ)]], p.length = colsL [[(0 : ℝ)]]) ∧
        (∃ q ∈ [[(0 : ℝ), 1]], q.length ≠ colsL [[(0 : ℝ)]]) ∧
        posterior2MuE [[0]] [0] [[0, 1]] = .error GPError.shapeMismatch) := by
  have hXt : ∀ p ∈ [[(0 : ℝ)]], p.length = colsL [[(0 : ℝ)]] := by
    intro p hp
    simp only [List.mem_singleton] at hp
    subst hp
    simp [colsL]
  have hbad : ∃ q ∈ [[(0 : ℝ), 1]], q.length ≠ colsL [[(0 : ℝ)]] := by
    refine ⟨[0, 1], by simp, ?_⟩
    simp [colsL]
  have hunit : IsUnit (squareOf (kernel1L [(0 : ℝ)] [(0 : ℝ)])).det := by
    rw [det_squareOf_single]
    exact isUnit_one
  have hsing : ¬IsUnit (squareOf (kernel1L [(0 : ℝ), 0] [(0 : ℝ), 0])).det := by
    rw [det_squareOf_dup]
    exact fun h => (by norm_num : ¬((0 : ℝ) ≠ 0)) h.ne_zero
  refine ⟨by simp, by simp, hunit, ?_, ⟨by simp, hsing, ?_⟩, hXt, hbad, ?_⟩
  · exact posterior_shape_mismatch.1 [0] [] [0] (by simp) (by simp) (by simp) hunit
  · exact posterior_shape_mismatch.2.1 [0, 0] [] [0] (by simp) hsing
  · exact posterior_shape_mismatch.2.2 [[0]] [0] [[0, 1]] hXt hbad

end GPNotebook
